import Mathlib

/-!
A shallow embedding of the IEC 61131-3 Structured Text lexer
(`pygments/lexers/iecst.py`) together with the generic stateful
regex-driven scanner engine that the token table instantiates.

The token table (states, rule order, patterns, actions) is translated
rule by rule from `IecstLexer.tokens`.  Every regular expression of the
table is realised as an anchored executable matcher on `List Char` that
reproduces Python `re` leftmost / greedy backtracking semantics for that
particular pattern.  Character classes are modelled over ASCII (`\w` is
ASCII alphanumeric or underscore), which all patterns of the table and
all concrete inputs of the claims stay within.

The scanner engine itself (`RegexLexer.get_tokens_unprocessed`) is not
part of the given sources.  Modelled from the spec: the core loop scans
the effective (include-expanded) rule list of the stack-top state in
declared order, fires the first rule whose pattern matches at the
cursor, emits the rule's token(s), advances the cursor by the match
length and applies the rule's stack action; a state may declare a
`default` fallback (a pure state transition); where no rule matches and
no fallback is declared, one `Error` token holding the single current
character is emitted and the cursor advances by exactly one character;
pops never underflow past the bottom sentinel state.
-/

namespace Iecst

/-- Token classifications used by the IecstLexer table (flattened names of
the Pygments token hierarchy, e.g. `CommentSingle` for `Comment.Single`). -/
inductive TokenType where
  | Whitespace
  | Text
  | CommentSingle
  | CommentMultiline
  | Keyword
  | KeywordType
  | StringAffix
  | String
  | StringChar
  | StringEscape
  | NumberFloat
  | NumberHex
  | NumberBin
  | NumberOct
  | NumberInteger
  | Operator
  | OperatorWord
  | Punctuation
  | NameBuiltin
  | Name
  | Error
  deriving DecidableEq, Repr

/-- Lexer state names that can appear on the state stack of a scan over
the IecstLexer table (the pure-include states `whitespace`, `keywords`,
`types` and `statements` are expanded at construction time and never
pushed). -/
inductive StateName where
  | root
  | statement
  | stringState
  deriving DecidableEq, Repr

/-- Stack action attached to a rule: keep the stack, push a named state,
or pop one level (`#pop`). -/
inductive StackOp where
  | stay
  | push (s : StateName)
  | pop
  deriving DecidableEq, Repr

/-! ### Character classes (ASCII fragment of the Python `re` classes) -/

/-- Python `\w` (ASCII fragment): letters, digits and underscore. -/
def isWordChar (c : Char) : Bool := c.isAlphanum || c = '_'

/-- The class `[^\S\n]`: whitespace other than newline. -/
def isSpaceNoNL (c : Char) : Bool := c.isWhitespace && !(c = '\n')

/-- The class `[0-9a-fA-F]`. -/
def isHexDig (c : Char) : Bool :=
  c.isDigit || ('a' ≤ c && c ≤ 'f') || ('A' ≤ c && c ≤ 'F')

/-- The class `[0-7]`. -/
def isOctDig (c : Char) : Bool := '0' ≤ c && c ≤ '7'

/-- The class `[01]`. -/
def isBit (c : Char) : Bool := c = '0' || c = '1'

/-- The class `[lL]`. -/
def isItlL (c : Char) : Bool := c = 'l' || c = 'L'

/-- The class `[uU]`. -/
def isItuU (c : Char) : Bool := c = 'u' || c = 'U'

/-- Length of the longest run of characters satisfying `p` at the head. -/
def runLen (p : Char → Bool) (l : List Char) : Nat := (l.takeWhile p).length

/-! ### Whitespace-state matchers -/

/-- Pattern `\n`. -/
def matchNL : List Char → Option Nat
  | '\n' :: _ => some 1
  | _ => none

/-- Pattern `[^\S\n]+`. -/
def matchWSRun (l : List Char) : Option Nat :=
  if runLen isSpaceNoNL l = 0 then none else some (runLen isSpaceNoNL l)

/-- Pattern `\\\n` (line continuation). -/
def matchLineCont : List Char → Option Nat
  | '\\' :: '\n' :: _ => some 2
  | _ => none

/-- Backtracking body of `_comment_single` after the leading `//`:
`(?:.|(?<=\\)\n)*\n` with `prev` the character just before the cursor.
The greedy star consumes any non-newline, or a newline preceded by a
backslash; on failure of the final `\n` it gives units back one at a
time, so the rightmost feasible final newline wins. -/
def cslScan : Char → List Char → Option Nat
  | prev, c :: rest =>
    if c = '\n' then
      if prev = '\\' then
        match cslScan '\n' rest with
        | some n => some (n + 1)
        | none => some 1
      else some 1
    else
      match cslScan c rest with
      | some n => some (n + 1)
      | none => none
  | _, [] => none

/-- Pattern `_comment_single` = `//(?:.|(?<=\\)\n)*\n`. -/
def matchCommentSingle : List Char → Option Nat
  | '/' :: '/' :: rest => (cslScan '/' rest).map (fun n => n + 2)
  | _ => none

/-- Whether the greedy content star of `_comment_multiline` must stop
here: at end of input, or at `[*]` whose negative lookahead
`(?!(?:\\\n)?/)` fails. -/
def cmlStop : List Char → Bool
  | [] => true
  | '*' :: '/' :: _ => true
  | '*' :: '\\' :: '\n' :: '/' :: _ => true
  | _ => false

/-- The closing part `[*](?:\\\n)?\)` of `_comment_multiline` (the
optional `\\\n` is tried greedily first). -/
def cmlTerm : List Char → Option Nat
  | '*' :: '\\' :: '\n' :: ')' :: _ => some 4
  | '*' :: ')' :: _ => some 2
  | _ => none

/-- Backtracking body of `_comment_multiline` after the opening
`\((?:\\\n)?[*]`: the greedy star `(?:[^*]|[*](?!(?:\\\n)?/))*`
followed by the terminator.  Consuming one more content character is
preferred; on failure the terminator is tried at the current position,
which is exactly the greedy-then-give-back order of the regex. -/
def cmlScan : List Char → Option Nat
  | [] => cmlTerm []
  | c :: rest =>
    if cmlStop (c :: rest) then cmlTerm (c :: rest)
    else
      match cmlScan rest with
      | some n => some (n + 1)
      | none => cmlTerm (c :: rest)

/-- Pattern `_comment_multiline` =
`\((?:\\\n)?[*](?:[^*]|[*](?!(?:\\\n)?/))*[*](?:\\\n)?\)`. -/
def matchCommentMultiline : List Char → Option Nat
  | '(' :: '\\' :: '\n' :: '*' :: rest => (cmlScan rest).map (fun n => n + 4)
  | '(' :: '*' :: rest => (cmlScan rest).map (fun n => n + 2)
  | _ => none

/-- Pattern `/(\\\n)?[*][\w\W]*` (comment open until EOF: note the
pattern requires a leading `/`, not `(`). -/
def matchCommentOpenEOF : List Char → Option Nat
  | '/' :: '\\' :: '\n' :: '*' :: rest => some (4 + rest.length)
  | '/' :: '*' :: rest => some (2 + rest.length)
  | _ => none

/-! ### Word-list matchers (`words(..., suffix=r'\b')`) -/

/-- Whether `\b` holds between a word character just consumed and the
head of `l` (true at end of input). -/
def wordBoundaryAfter : List Char → Bool
  | [] => true
  | c :: _ => !(isWordChar c)

/-- Matcher for a `words(...)` alternation with suffix `\b`.  All listed
words consist of word characters, so at most one word of the list can be
a prefix of `l` with a word boundary after it; hence picking the first
such word in list order is equivalent to the `regex_opt` alternation,
whatever internal order that produces. -/
def matchWords (ws : List (List Char)) (l : List Char) : Option Nat :=
  match ws with
  | [] => none
  | w :: rest =>
    if w.isPrefixOf l && wordBoundaryAfter (l.drop w.length) then some w.length
    else matchWords rest l

/-- The keyword word list of `IecstLexer.tokens['keywords']`, in source
order. -/
def kwStrings : List String :=
  ["IF", "THEN", "ELSIF", "ELSE", "END_IF", "FOR", "DO",
   "END_FOR", "WHILE", "END_WHILE", "REPEAT", "UNTIL", "BREAK",
   "CONTINUE", "RETURN", "END_REPEAT", "CONSTANT", "VAR",
   "VAR_INPUT", "VAR_OUTPUT", "VAR_STAT", "VAR_IN_OUT", "OF",
   "VAR_GLOBAL", "END_VAR", "PUBLIC", "PRIVATE", "INTERNAL",
   "PROTECTED", "FUNCTION", "PROGRAM", "FUNCTION_BLOCK",
   "CASE", "END_CASE", "END_FUNCTION", "END_PROGRAM",
   "END_FUNCTION_BLOCK", "MOD", "ABS", "ACOS", "ASIN", "ATAN",
   "COS", "EXP", "EXPT", "LN", "LOG", "SIN", "SQRT", "TAN",
   "SEL", "MAX", "MIN", "LIMIT", "MUX", "SHL", "SHR", "ROL",
   "ROR", "INDEXOF", "SIZEOF", "ADR", "REF", "ADRINST",
   "BITADR", "ADD", "MUL", "DIV", "SUB", "TRUNC", "MOVE"]

/-- Keyword list as character lists. -/
def kwList : List (List Char) := kwStrings.map String.toList

/-- The type-name word list of `IecstLexer.tokens['types']`, in source
order (including the duplicated `UDINT` of the source). -/
def tyStrings : List String :=
  ["BOOL", "BYTE", "WORD", "DWORD", "LWORD", "SINT", "USINT",
   "INT", "UINT", "DINT", "UDINT", "UDINT", "LINT", "ULINT",
   "REAL", "LREAL", "STRING", "WSTRING", "TIME", "LTIME",
   "TIME_OF_DAY", "TOD", "DATE", "DATE_AND_TIME", "DT",
   "POINTER", "ARRAY", "REFERENCE"]

/-- Type-name list as character lists. -/
def tyList : List (List Char) := tyStrings.map String.toList

/-- The keyword rule pattern: `words((...), suffix=r'\b')`. -/
def matchKeyword (l : List Char) : Option Nat := matchWords kwList l

/-- The type rule pattern: `words((...), suffix=r'\b')`. -/
def matchType (l : List Char) : Option Nat := matchWords tyList l

/-! ### Number matchers -/

/-- Greedy `(\'?d)*` tail of `_decpart` / `_hexpart` for the digit class
`p`: each unit is an optional `'` separator followed by a digit. -/
def sepTail (p : Char → Bool) : List Char → Nat
  | '\'' :: c :: rest => if p c then 2 + sepTail p rest else 0
  | c :: rest => if p c then 1 + sepTail p rest else 0
  | [] => 0

/-- `_decpart` / `_hexpart` for digit class `p`: `d(\'?d)*`, greedy.  In
every context of the table the following regex element can match neither
a digit of `p` nor `'`, so the greedy parse never has to give back. -/
def sepPart (p : Char → Bool) (l : List Char) : Option Nat :=
  match l with
  | c :: rest => if p c then some (1 + sepTail p rest) else none
  | [] => none

/-- Up to two `[lL]` characters, greedy. -/
def lCount2 : List Char → Nat
  | a :: b :: _ => if isItlL a then (if isItlL b then 2 else 1) else 0
  | [a] => if isItlL a then 1 else 0
  | [] => 0

/-- An optional `[uU]`, greedy. -/
def uCount1 : List Char → Nat
  | a :: _ => if isItuU a then 1 else 0
  | [] => 0

/-- `_intsuffix` = `(([uU][lL]{0,2})|[lL]{1,2}[uU]?)?`, greedy. -/
def intSuffixLen : List Char → Nat
  | [] => 0
  | c :: rest =>
    if isItuU c then 1 + lCount2 rest
    else if isItlL c then
      match rest with
      | d :: rest2 => if isItlL d then 2 + uCount1 rest2 else 1 + uCount1 rest
      | [] => 1
    else 0

/-- An optional `[fFlL]`, greedy. -/
def flOpt : List Char → Nat
  | c :: _ => if c = 'f' || c = 'F' || c = 'l' || c = 'L' then 1 else 0
  | [] => 0

/-- An optional `[lL]`, greedy. -/
def lOpt : List Char → Nat
  | c :: _ => if isItlL c then 1 else 0
  | [] => 0

/-- Exponent part `[pP][+-]?_hexpart[lL]?` of the hexadecimal float
rule. -/
def pExp (l : List Char) : Option Nat :=
  match l with
  | c :: rest =>
    if c = 'p' || c = 'P' then
      match rest with
      | s :: rest2 =>
        if s = '+' || s = '-' then
          (sepPart isHexDig rest2).map (fun n => 2 + n + lOpt (rest2.drop n))
        else
          (sepPart isHexDig rest).map (fun n => 1 + n + lOpt (rest.drop n))
      | [] => none
    else none
  | [] => none

/-- Exponent part `[eE][+-]?_decpart[fFlL]?` of the decimal float
rule. -/
def eExp (l : List Char) : Option Nat :=
  match l with
  | c :: rest =>
    if c = 'e' || c = 'E' then
      match rest with
      | s :: rest2 =>
        if s = '+' || s = '-' then
          (sepPart Char.isDigit rest2).map (fun n => 2 + n + flOpt (rest2.drop n))
        else
          (sepPart Char.isDigit rest).map (fun n => 1 + n + flOpt (rest.drop n))
      | [] => none
    else none
  | [] => none

/-- Body `(_hexpart\._hexpart|\._hexpart|_hexpart)[pP][+-]?_hexpart[lL]?`
of the hexadecimal float rule after `0[xX]`: the three alternatives are
tried in declared order, each with the full exponent continuation (no
position inside a greedy `_hexpart` can start `[pP]`, so no further
give-back arises).  First alternative `_hexpart\._hexpart`. -/
def hexFloatAlt1 (rest : List Char) : Option Nat :=
  match sepPart isHexDig rest with
  | some a =>
    match rest.drop a with
    | '.' :: r2 =>
      match sepPart isHexDig r2 with
      | some b => (pExp (r2.drop b)).map (fun e => a + 1 + b + e)
      | none => none
    | _ => none
  | none => none

/-- Second alternative `\._hexpart` of the hexadecimal float body, with
the exponent continuation. -/
def hexFloatAlt2 (rest : List Char) : Option Nat :=
  match rest with
  | '.' :: r2 =>
    match sepPart isHexDig r2 with
    | some b => (pExp (r2.drop b)).map (fun e => 1 + b + e)
    | none => none
  | _ => none

/-- Third alternative `_hexpart` of the hexadecimal float body, with the
exponent continuation. -/
def hexFloatAlt3 (rest : List Char) : Option Nat :=
  match sepPart isHexDig rest with
  | some a => (pExp (rest.drop a)).map (fun e => a + e)
  | none => none

def hexFloatTail (rest : List Char) : Option Nat :=
  match hexFloatAlt1 rest with
  | some n => some n
  | none =>
    match hexFloatAlt2 rest with
    | some n => some n
    | none => hexFloatAlt3 rest

/-- Pattern
`0[xX](_hexpart\._hexpart|\._hexpart|_hexpart)[pP][+-]?_hexpart[lL]?`
(hexadecimal floating-point literal; note: no leading `(-)?`). -/
def matchHexFloat : List Char → Option Nat
  | '0' :: x :: rest =>
    if x = 'x' || x = 'X' then (hexFloatTail rest).map (fun n => n + 2) else none
  | _ => none

/-- Body `(_decpart\._decpart|\._decpart|_decpart)[eE][+-]?_decpart[fFlL]?`
of the exponent float rule after the optional minus: first
alternative `_decpart\._decpart`. -/
def decFloatExpAlt1 (rest : List Char) : Option Nat :=
  match sepPart Char.isDigit rest with
  | some a =>
    match rest.drop a with
    | '.' :: r2 =>
      match sepPart Char.isDigit r2 with
      | some b => (eExp (r2.drop b)).map (fun e => a + 1 + b + e)
      | none => none
    | _ => none
  | none => none

/-- Second alternative `\._decpart` of the exponent float body. -/
def decFloatExpAlt2 (rest : List Char) : Option Nat :=
  match rest with
  | '.' :: r2 =>
    match sepPart Char.isDigit r2 with
    | some b => (eExp (r2.drop b)).map (fun e => 1 + b + e)
    | none => none
  | _ => none

/-- Third alternative `_decpart` of the exponent float body. -/
def decFloatExpAlt3 (rest : List Char) : Option Nat :=
  match sepPart Char.isDigit rest with
  | some a => (eExp (rest.drop a)).map (fun e => a + e)
  | none => none

def decFloatExpTail (rest : List Char) : Option Nat :=
  match decFloatExpAlt1 rest with
  | some n => some n
  | none =>
    match decFloatExpAlt2 rest with
    | some n => some n
    | none => decFloatExpAlt3 rest

/-- Pattern
`(-)?(_decpart\._decpart|\._decpart|_decpart)[eE][+-]?_decpart[fFlL]?`
(decimal float with mandatory exponent).  When the optional minus is
present but the body fails, the empty alternative of `(-)?` cannot
rescue the match (the body needs a digit or dot at the `-`), so the
whole rule fails. -/
def matchDecFloatExp : List Char → Option Nat
  | '-' :: rest => (decFloatExpTail rest).map (fun n => n + 1)
  | l => decFloatExpTail l

/-- Body `(_decpart\.(_decpart)?|\._decpart)[fFlL]?` of the first branch
of the fraction float rule. -/
def decFracTail (l : List Char) : Option Nat :=
  match sepPart Char.isDigit l with
  | some a =>
    match l.drop a with
    | '.' :: r2 =>
      match sepPart Char.isDigit r2 with
      | some b => some (a + 1 + b + flOpt (r2.drop b))
      | none => some (a + 1 + flOpt r2)
    | _ => none
  | none =>
    match l with
    | '.' :: r2 =>
      match sepPart Char.isDigit r2 with
      | some b => some (1 + b + flOpt (r2.drop b))
      | none => none
    | _ => none

/-- Pattern
`(-)?((_decpart\.(_decpart)?|\._decpart)[fFlL]?)|(_decpart[fFlL])`.
The top-level alternation splits as written in the source: the optional
minus belongs to the first branch only.  This is the first branch
`(-)?((_decpart\.(_decpart)?|\._decpart)[fFlL]?)`. -/
def decFloatBranch1 : List Char → Option Nat
  | '-' :: rest => (decFracTail rest).map (fun n => n + 1)
  | l => decFracTail l

/-- Second top-level branch `(_decpart[fFlL])` of the fraction float
rule (no optional minus). -/
def decFloatBranch2 (l : List Char) : Option Nat :=
  match sepPart Char.isDigit l with
  | some a =>
    match l.drop a with
    | c :: _ =>
      if c = 'f' || c = 'F' || c = 'l' || c = 'L' then some (a + 1) else none
    | [] => none
  | none => none

def matchDecFloat (l : List Char) : Option Nat :=
  match decFloatBranch1 l with
  | some n => some n
  | none => decFloatBranch2 l

/-- Body `0[xX]_hexpart_intsuffix` of the hexadecimal integer rule. -/
def matchHexIntBody : List Char → Option Nat
  | '0' :: x :: rest =>
    if x = 'x' || x = 'X' then
      match sepPart isHexDig rest with
      | some a => some (2 + a + intSuffixLen (rest.drop a))
      | none => none
    else none
  | _ => none

/-- Pattern `(-)?0[xX]_hexpart_intsuffix`. -/
def matchHexInt : List Char → Option Nat
  | '-' :: rest => (matchHexIntBody rest).map (fun n => n + 1)
  | l => matchHexIntBody l

/-- Body `0[bB][01](\'?[01])*_intsuffix` of the binary integer rule. -/
def matchBinIntBody : List Char → Option Nat
  | '0' :: b :: rest =>
    if b = 'b' || b = 'B' then
      match sepPart isBit rest with
      | some a => some (2 + a + intSuffixLen (rest.drop a))
      | none => none
    else none
  | _ => none

/-- Pattern `(-)?0[bB][01](\'?[01])*_intsuffix`. -/
def matchBinInt : List Char → Option Nat
  | '-' :: rest => (matchBinIntBody rest).map (fun n => n + 1)
  | l => matchBinIntBody l

/-- Body `0(\'?[0-7])+_intsuffix` of the octal integer rule (at least
one separator-digit unit after the leading `0`). -/
def matchOctIntBody : List Char → Option Nat
  | '0' :: rest =>
    let t := sepTail isOctDig rest
    if t = 0 then none else some (1 + t + intSuffixLen (rest.drop t))
  | _ => none

/-- Pattern `(-)?0(\'?[0-7])+_intsuffix`. -/
def matchOctInt : List Char → Option Nat
  | '-' :: rest => (matchOctIntBody rest).map (fun n => n + 1)
  | l => matchOctIntBody l

/-- Body `_decpart_intsuffix` of the decimal integer rule. -/
def matchDecIntBody (l : List Char) : Option Nat :=
  match sepPart Char.isDigit l with
  | some a => some (a + intSuffixLen (l.drop a))
  | none => none

/-- Pattern `(-)?_decpart_intsuffix`. -/
def matchDecInt : List Char → Option Nat
  | '-' :: rest => (matchDecIntBody rest).map (fun n => n + 1)
  | l => matchDecIntBody l

/-! ### Operator, punctuation, builtin, identifier matchers -/

/-- Pattern `:=|:|\+|-|\*|/|>|<` (alternatives in declared order, so
`:=` is preferred over `:`). -/
def matchOperator : List Char → Option Nat
  | ':' :: '=' :: _ => some 2
  | ':' :: _ => some 1
  | '+' :: _ => some 1
  | '-' :: _ => some 1
  | '*' :: _ => some 1
  | '/' :: _ => some 1
  | '>' :: _ => some 1
  | '<' :: _ => some 1
  | _ => none

/-- Expansion of the conversion-type sub-alternation
`(BOOL|BYTE|D?L?WORD|L?TIME|DATE|DT|TOD|W?CHAR|W?STRING|U?S?D?L?INT|L?REAL)`
of the word-operator rule, each optional-prefix family listed in greedy
order.  No listed word is a prefix of another, so at most one of them
can match at a given position. -/
def convTargetStrings : List String :=
  ["BOOL", "BYTE",
   "DLWORD", "DWORD", "LWORD", "WORD",
   "LTIME", "TIME",
   "DATE", "DT", "TOD",
   "WCHAR", "CHAR",
   "WSTRING", "STRING",
   "USDLINT", "USDINT", "USLINT", "USINT",
   "UDLINT", "UDINT", "ULINT", "UINT",
   "SDLINT", "SDINT", "SLINT", "SINT",
   "DLINT", "DINT", "LINT", "INT",
   "LREAL", "REAL"]

/-- Conversion target words as character lists. -/
def convTargetList : List (List Char) := convTargetStrings.map String.toList

/-- Source side of `..._TO_...`: the target alternation preceded by
`ANY`. -/
def convSourceList : List (List Char) :=
  ("ANY".toList) :: convTargetList

/-- First word of `ws` that is a prefix of `l` (no boundary check; the
word lists used have no word that is a prefix of another, so the result
does not depend on the order). -/
def firstPrefixWord (ws : List (List Char)) (l : List Char) : Option Nat :=
  match ws with
  | [] => none
  | w :: rest => if w.isPrefixOf l then some w.length else firstPrefixWord rest l

/-- Whether the leading `\b` of the word-operator rule holds: every
alternative starts with a word character, so the boundary holds exactly
when the preceding character (if any) is not a word character. -/
def boundaryBefore : Option Char → Bool
  | none => true
  | some c => !(isWordChar c)

/-- A fixed word alternative of the word-operator rule together with the
trailing `\b`. -/
def owFixed (w : List Char) (l : List Char) : Option Nat :=
  if w.isPrefixOf l && wordBoundaryAfter (l.drop w.length) then some w.length
  else none

/-- The `TO_(...)` alternative of the word-operator rule with trailing
`\b`. -/
def owToX (l : List Char) : Option Nat :=
  if ("TO_".toList).isPrefixOf l then
    match firstPrefixWord convTargetList (l.drop 3) with
    | some k => if wordBoundaryAfter (l.drop (3 + k)) then some (3 + k) else none
    | none => none
  else none

/-- The `(ANY|...)_TO_(...)` alternative of the word-operator rule with
trailing `\b`. -/
def owYToX (l : List Char) : Option Nat :=
  match firstPrefixWord convSourceList l with
  | some j =>
    if ("_TO_".toList).isPrefixOf (l.drop j) then
      match firstPrefixWord convTargetList (l.drop (j + 4)) with
      | some k =>
        if wordBoundaryAfter (l.drop (j + 4 + k)) then some (j + 4 + k) else none
      | none => none
    else none
  | none => none

/-- The verbose word-operator pattern
`\b(?:AND|OR|NOT|TO_(...)|(...)_TO_(...))\b` of the `statements` state,
with `prev` the character before the cursor (Python matches the leading
`\b` against `text[pos-1]`).  Alternatives are tried in declared
order; they are pairwise exclusive on any one input. -/
def matchOpWord (prev : Option Char) (l : List Char) : Option Nat :=
  if boundaryBefore prev then
    match owFixed ("AND".toList) l with
    | some n => some n
    | none =>
      match owFixed ("OR".toList) l with
      | some n => some n
      | none =>
        match owFixed ("NOT".toList) l with
        | some n => some n
        | none =>
          match owToX l with
          | some n => some n
          | none => owYToX l
  else none

/-- Pattern `[()\[\],.]`. -/
def matchPunct : List Char → Option Nat
  | c :: _ => if c = '(' || c = ')' || c = '[' || c = ']' || c = ',' || c = '.' then some 1 else none
  | [] => none

/-- Pattern `(true|false|null)\b`. -/
def matchBuiltin (l : List Char) : Option Nat :=
  matchWords ["true".toList, "false".toList, "null".toList] l

/-- Greedy unit run of `_ident` after the `(?!\d)` lookahead:
`(?:[\w$]|\\u[0-9a-fA-F]{4}|\\U[0-9a-fA-F]{8})+` (units tried in
declared order; `\` is not a word character, so the alternatives are
exclusive). -/
def identTail : List Char → Nat
  | '\\' :: 'u' :: a :: b :: c :: d :: rest =>
    if isHexDig a && isHexDig b && isHexDig c && isHexDig d then 6 + identTail rest
    else 0
  | '\\' :: 'U' :: a :: b :: c :: d :: e :: f :: g :: h :: rest =>
    if isHexDig a && isHexDig b && isHexDig c && isHexDig d &&
       isHexDig e && isHexDig f && isHexDig g && isHexDig h then 10 + identTail rest
    else 0
  | c :: rest => if isWordChar c || c = '$' then 1 + identTail rest else 0
  | [] => 0

/-- Pattern `_ident` =
`(?!\d)(?:[\w$]|\\u[0-9a-fA-F]{4}|\\U[0-9a-fA-F]{8})+`. -/
def matchIdent (l : List Char) : Option Nat :=
  match l with
  | c :: _ =>
    if c.isDigit then none
    else if identTail l = 0 then none else some (identTail l)
  | [] => none

/-! ### String-state matchers -/

/-- Pattern `"` (closes the string state). -/
def matchStrClose : List Char → Option Nat
  | '"' :: _ => some 1
  | _ => none

/-- The single-character escape class `[\\abfnrtv"\']`. -/
def escClassChars : List Char := ['\\', 'a', 'b', 'f', 'n', 'r', 't', 'v', '"', '\'']

/-- Pattern
`\\([\\abfnrtv"\']|x[a-fA-F0-9]{2,4}|u[a-fA-F0-9]{4}|U[a-fA-F0-9]{8}|[0-7]{1,3})`
with the alternatives in declared order and greedy counted repeats. -/
def matchStrEscape : List Char → Option Nat
  | '\\' :: c :: rest =>
    if c ∈ escClassChars then some 2
    else if c = 'x' then
      if 2 ≤ (rest.takeWhile isHexDig).length then
        some (2 + min ((rest.takeWhile isHexDig).length) 4)
      else none
    else if c = 'u' then
      if (rest.take 4).length = 4 && (rest.take 4).all isHexDig then some 6 else none
    else if c = 'U' then
      if (rest.take 8).length = 8 && (rest.take 8).all isHexDig then some 10 else none
    else if isOctDig c then some (1 + min (1 + (rest.takeWhile isOctDig).length) 3)
    else none
  | _ => none

/-- Pattern `[^\\"\n]+` (all other characters of a string). -/
def matchStrPlain (l : List Char) : Option Nat :=
  if runLen (fun c => !(c = '\\' || c = '"' || c = '\n')) l = 0 then none
  else some (runLen (fun c => !(c = '\\' || c = '"' || c = '\n')) l)

/-- Pattern `\\\n` (line continuation inside a string). -/
def matchStrCont : List Char → Option Nat
  | '\\' :: '\n' :: _ => some 2
  | _ => none

/-- Pattern `\\` (stray backslash). -/
def matchStrStray : List Char → Option Nat
  | '\\' :: _ => some 1
  | _ => none

/-! ### Statement-state extra matchers -/

/-- Pattern `\}`. -/
def matchBraceClose : List Char → Option Nat
  | '}' :: _ => some 1
  | _ => none

/-- Pattern `[{;]` (pops the statement state). -/
def matchBraceOpenSemi : List Char → Option Nat
  | c :: _ => if c = '{' || c = ';' then some 1 else none
  | [] => none

/-! ### Grouped (`bygroups`) rules -/

/-- The string-opening rule `([LuU]|u8)?(")` with
`bygroups(String.Affix, String)`: the affix alternatives are tried in
declared order (`[LuU]` before `u8`, then the empty option), each with
the mandatory quote; an affix group that did not participate produces no
token at all. -/
def stringOpenRun (l : List Char) : Option (List (TokenType × List Char) × Nat) :=
  match l with
  | '"' :: _ => some ([(.String, ['"'])], 1)
  | 'L' :: '"' :: _ => some ([(.StringAffix, ['L']), (.String, ['"'])], 2)
  | 'u' :: '"' :: _ => some ([(.StringAffix, ['u']), (.String, ['"'])], 2)
  | 'U' :: '"' :: _ => some ([(.StringAffix, ['U']), (.String, ['"'])], 2)
  | 'u' :: '8' :: '"' :: _ => some ([(.StringAffix, ['u', '8']), (.String, ['"'])], 3)
  | _ => none

/-- Whether `rest` starts with exactly `k` characters of class `p`
followed by a closing single quote. -/
def takeThenQuote (p : Char → Bool) (rest : List Char) (k : Nat) : Bool :=
  ((rest.take k).length = k && (rest.take k).all p) &&
    ((rest.drop k).head? == some '\'')

/-- Character-literal body alternative `\\.` followed by the closing
quote (`.` does not match a newline). -/
def cbDotQ : List Char → Option (List Char)
  | '\\' :: c :: '\'' :: _ => if c = '\n' then none else some ['\\', c]
  | _ => none

/-- Character-literal body alternative `\\[0-7]{1,3}` followed by the
closing quote; the counted repeat is greedy and gives digits back until
the quote fits. -/
def cbOctQ : List Char → Option (List Char)
  | '\\' :: rest =>
    if takeThenQuote isOctDig rest 3 then some ('\\' :: rest.take 3)
    else if takeThenQuote isOctDig rest 2 then some ('\\' :: rest.take 2)
    else if takeThenQuote isOctDig rest 1 then some ('\\' :: rest.take 1)
    else none
  | _ => none

/-- Character-literal body alternative `\\x[a-fA-F0-9]{1,2}` followed by
the closing quote, greedy. -/
def cbHexQ : List Char → Option (List Char)
  | '\\' :: 'x' :: r2 =>
    if takeThenQuote isHexDig r2 2 then some ('\\' :: 'x' :: r2.take 2)
    else if takeThenQuote isHexDig r2 1 then some ('\\' :: 'x' :: r2.take 1)
    else none
  | _ => none

/-- Character-literal body alternative `[^\\\'\n]` followed by the
closing quote. -/
def cbPlainQ : List Char → Option (List Char)
  | c :: '\'' :: _ => if c = '\\' || c = '\'' || c = '\n' then none else some [c]
  | _ => none

/-- The body group `(\\.|\\[0-7]{1,3}|\\x[a-fA-F0-9]{1,2}|[^\\\'\n])` of
the character-literal rule, each alternative checked together with the
closing quote that follows it, in declared order. -/
def charBody (l : List Char) : Option (List Char) :=
  match cbDotQ l with
  | some b => some b
  | none =>
    match cbOctQ l with
    | some b => some b
    | none =>
      match cbHexQ l with
      | some b => some b
      | none => cbPlainQ l

/-- The three quoted groups of the character-literal rule as tokens. -/
def charQuoteToks (b : List Char) : List (TokenType × List Char) :=
  [(.StringChar, ['\'']), (.StringChar, b), (.StringChar, ['\''])]

/-- The character-literal rule
`([LuU]|u8)?(')(\\.|\\[0-7]{1,3}|\\x[a-fA-F0-9]{1,2}|[^\\\'\n])(')` with
`bygroups(String.Affix, String.Char, String.Char, String.Char)`; affix
alternatives as in `stringOpenRun`. -/
def charLitRun (l : List Char) : Option (List (TokenType × List Char) × Nat) :=
  match l with
  | '\'' :: rest =>
    (charBody rest).map (fun b => (charQuoteToks b, b.length + 2))
  | 'L' :: '\'' :: rest =>
    (charBody rest).map (fun b => ((.StringAffix, ['L']) :: charQuoteToks b, b.length + 3))
  | 'u' :: '\'' :: rest =>
    (charBody rest).map (fun b => ((.StringAffix, ['u']) :: charQuoteToks b, b.length + 3))
  | 'U' :: '\'' :: rest =>
    (charBody rest).map (fun b => ((.StringAffix, ['U']) :: charQuoteToks b, b.length + 3))
  | 'u' :: '8' :: '\'' :: rest =>
    (charBody rest).map (fun b => ((.StringAffix, ['u', '8']) :: charQuoteToks b, b.length + 4))
  | _ => none

/-! ### Rules and state tables -/

/-- One pattern rule: an anchored matcher producing the emitted tokens
and the number of consumed characters, together with a stack action. -/
structure Rule where
  run : Option Char → List Char → Option (List (TokenType × List Char) × Nat)
  op : StackOp

/-- A rule that emits a single token holding the whole match, from a
context-free matcher. -/
def simpleRule (t : TokenType) (op : StackOp) (m : List Char → Option Nat) : Rule :=
  { run := fun _ l => (m l).map (fun n => ([(t, l.take n)], n)), op := op }

/-- A rule that emits a single token holding the whole match, from a
matcher that also sees the character before the cursor. -/
def simpleRuleP (t : TokenType) (op : StackOp)
    (m : Option Char → List Char → Option Nat) : Rule :=
  { run := fun prev l => (m prev l).map (fun n => ([(t, l.take n)], n)), op := op }

def wsNewlineRule : Rule := simpleRule .Whitespace .stay matchNL

def wsRunRule : Rule := simpleRule .Whitespace .stay matchWSRun

def lineContRule : Rule := simpleRule .Text .stay matchLineCont

def commentSingleRule : Rule := simpleRule .CommentSingle .stay matchCommentSingle

def commentMultilineRule : Rule := simpleRule .CommentMultiline .stay matchCommentMultiline

def commentOpenEOFRule : Rule := simpleRule .CommentMultiline .stay matchCommentOpenEOF

def kwRule : Rule := simpleRule .Keyword .stay matchKeyword

def tyRule : Rule := simpleRule .KeywordType .stay matchType

def stringOpenRule : Rule :=
  { run := fun _ l => stringOpenRun l, op := .push .stringState }

def charLitRule : Rule := { run := fun _ l => charLitRun l, op := .stay }

def hexFloatRule : Rule := simpleRule .NumberFloat .stay matchHexFloat

def decFloatExpRule : Rule := simpleRule .NumberFloat .stay matchDecFloatExp

def decFloatRule : Rule := simpleRule .NumberFloat .stay matchDecFloat

def hexIntRule : Rule := simpleRule .NumberHex .stay matchHexInt

def binIntRule : Rule := simpleRule .NumberBin .stay matchBinInt

def octIntRule : Rule := simpleRule .NumberOct .stay matchOctInt

def decIntRule : Rule := simpleRule .NumberInteger .stay matchDecInt

def operatorRule : Rule := simpleRule .Operator .stay matchOperator

def opWordRule : Rule := simpleRuleP .OperatorWord .stay matchOpWord

def punctRule : Rule := simpleRule .Punctuation .stay matchPunct

def builtinRule : Rule := simpleRule .NameBuiltin .stay matchBuiltin

def identRule : Rule := simpleRule .Name .stay matchIdent

def strCloseRule : Rule := simpleRule .String .pop matchStrClose

def strEscapeRule : Rule := simpleRule .StringEscape .stay matchStrEscape

def strPlainRule : Rule := simpleRule .String .stay matchStrPlain

def strContRule : Rule := simpleRule .String .stay matchStrCont

def strStrayRule : Rule := simpleRule .String .stay matchStrStray

def braceCloseRule : Rule := simpleRule .Punctuation .stay matchBraceClose

def braceOpenSemiRule : Rule := simpleRule .Punctuation .pop matchBraceOpenSemi

/-- The `whitespace` state rule list, in source order. -/
def whitespaceRules : List Rule :=
  [wsNewlineRule, wsRunRule, lineContRule, commentSingleRule,
   commentMultilineRule, commentOpenEOFRule]

/-- The `keywords` state rule list. -/
def keywordsRules : List Rule := [kwRule]

/-- The `types` state rule list. -/
def typesRules : List Rule := [tyRule]

/-- The `statements` state rule list with its two `include`s expanded in
place, in source order. -/
def statementsRules : List Rule :=
  keywordsRules ++ typesRules ++
  [stringOpenRule, charLitRule, hexFloatRule, decFloatExpRule, decFloatRule,
   hexIntRule, binIntRule, octIntRule, decIntRule, operatorRule, opWordRule,
   punctRule, builtinRule, identRule]

/-- The `string` state rule list, in source order. -/
def stringRules : List Rule :=
  [strCloseRule, strEscapeRule, strPlainRule, strContRule, strStrayRule]

/-- The `root` state rule list with its `include`s expanded (the
`default('statement')` fallback is part of the engine step). -/
def rootRules : List Rule := whitespaceRules ++ keywordsRules ++ typesRules

/-- The `statement` state rule list with its `include`s expanded, in
source order. -/
def statementRules : List Rule :=
  whitespaceRules ++ statementsRules ++ [braceCloseRule, braceOpenSemiRule]

/-- Effective (include-expanded) rule list of a state. -/
def rulesOf : StateName → List Rule
  | .root => rootRules
  | .statement => statementRules
  | .stringState => stringRules

/-- Top of the state stack (head of the list); the stack is never empty
during a scan, the `root` default is never read. -/
def topOf : List StateName → StateName
  | [] => .root
  | s :: _ => s

/-! ### The scanner engine (modelled from the spec, see the file
header) -/

/-- First-match rule selection: scan the rule list in declared order and
fire the first rule whose pattern matches at the cursor. -/
def tryRules (rs : List Rule) (prev : Option Char) (l : List Char) :
    Option (List (TokenType × List Char) × Nat × StackOp) :=
  match rs with
  | [] => none
  | r :: rest =>
    match r.run prev l with
    | some (toks, n) => some (toks, n, r.op)
    | none => tryRules rest prev l

/-- Pop one level, a no-op when only the bottom sentinel remains. -/
def popStack (st : List StateName) : List StateName :=
  if 1 < st.length then st.tail else st

/-- Apply a rule's stack action (head of the list = top of the stack). -/
def applyOp : StackOp → List StateName → List StateName
  | .stay, st => st
  | .push s, st => s :: st
  | .pop, st => popStack st

/-- Attach absolute start offsets to the grouped tokens of one match,
consecutive groups following each other. -/
def withOffsets (off : Nat) : List (TokenType × List Char) → List (Nat × TokenType × List Char)
  | [] => []
  | (t, s) :: rest => (off, t, s) :: withOffsets (off + s.length) rest

/-- The scanner core loop, modelled from the spec.  `stack` is the state
stack (head = top), `prev` the character before the cursor, `off` the
cursor offset, `l` the remaining input.  Where no rule of the top state
matches: the `root` state takes its `default('statement')` fallback (a
pure state transition); any other state emits one `Error` token holding
the current character and advances by one. -/
def scanAux (stack : List StateName) (prev : Option Char) (off : Nat) (l : List Char) :
    List (Nat × TokenType × List Char) :=
  match l with
  | [] => []
  | c :: cs =>
    match tryRules (rulesOf (topOf stack)) prev (c :: cs) with
    | some (toks, n, op) =>
      if _hn : n = 0 then []  -- unreachable: every rule of the table consumes a character
      else
        withOffsets off toks ++
          scanAux (applyOp op stack) ((c :: cs).take n).getLast? (off + n)
            ((c :: cs).drop n)
    | none =>
      if _hr : topOf stack = .root then
        scanAux (.statement :: stack) prev off (c :: cs)
      else
        (off, .Error, [c]) :: scanAux stack (some c) (off + 1) cs
termination_by (l.length, if topOf stack = .root then 1 else 0)
decreasing_by
  · apply Prod.Lex.left
    simp [List.length_drop]
    omega
  · apply Prod.Lex.right
    cases stack with
    | nil => simp [topOf]
    | cons s tl =>
      have hs : s = StateName.root := _hr
      subst hs
      simp [topOf]
  · apply Prod.Lex.left
    simp

/-- One full scan of an input: fresh stack `['root']`, cursor at 0. -/
def scanTokens (l : List Char) : List (Nat × TokenType × List Char) :=
  scanAux [.root] none 0 l

/-- One full scan of a string input. -/
def scanString (s : String) : List (Nat × TokenType × List Char) :=
  scanTokens s.toList

/-- The sequence of state stacks visited by `scanAux`, step for step
(same recursion structure). -/
def scanStacksAux (stack : List StateName) (prev : Option Char) (off : Nat)
    (l : List Char) : List (List StateName) :=
  match l with
  | [] => [stack]
  | c :: cs =>
    match tryRules (rulesOf (topOf stack)) prev (c :: cs) with
    | some (_, n, op) =>
      if _hn : n = 0 then [stack]
      else
        stack ::
          scanStacksAux (applyOp op stack) ((c :: cs).take n).getLast? (off + n)
            ((c :: cs).drop n)
    | none =>
      if _hr : topOf stack = .root then
        stack :: scanStacksAux (.statement :: stack) prev off (c :: cs)
      else
        stack :: scanStacksAux stack (some c) (off + 1) cs
termination_by (l.length, if topOf stack = .root then 1 else 0)
decreasing_by
  · apply Prod.Lex.left
    simp [List.length_drop]
    omega
  · apply Prod.Lex.right
    cases stack with
    | nil => simp [topOf]
    | cons s tl =>
      have hs : s = StateName.root := _hr
      subst hs
      simp [topOf]
  · apply Prod.Lex.left
    simp

/-- The state stacks visited by a full scan. -/
def scanStacks (l : List Char) : List (List StateName) :=
  scanStacksAux [.root] none 0 l

/-- Concatenated text of emitted tokens. -/
def tokensText : List (Nat × TokenType × List Char) → List Char
  | [] => []
  | (_, _, s) :: rest => s ++ tokensText rest

/-- Concatenated text of the grouped tokens of one match. -/
def groupText : List (TokenType × List Char) → List Char
  | [] => []
  | (_, s) :: rest => s ++ groupText rest

/-! ### Fueled twin of the scanner (structural recursion, so the kernel
can evaluate concrete scans) -/

/-- Structural twin of `scanAux` with an explicit fuel parameter,
identical step for step; `scanAux_eq_scanFuel` shows the fuel is
irrelevant once large enough. -/
def scanFuel : Nat → List StateName → Option Char → Nat → List Char →
    List (Nat × TokenType × List Char)
  | 0, _, _, _, _ => []
  | _ + 1, _, _, _, [] => []
  | fuel + 1, stack, prev, off, c :: cs =>
    match tryRules (rulesOf (topOf stack)) prev (c :: cs) with
    | some (toks, n, op) =>
      if n = 0 then []
      else
        withOffsets off toks ++
          scanFuel fuel (applyOp op stack) ((c :: cs).take n).getLast? (off + n)
            ((c :: cs).drop n)
    | none =>
      if topOf stack = .root then
        scanFuel fuel (.statement :: stack) prev off (c :: cs)
      else
        (off, .Error, [c]) :: scanFuel fuel stack (some c) (off + 1) cs

/-- Structural twin of `scanStacksAux` with fuel. -/
def scanStacksFuel : Nat → List StateName → Option Char → Nat → List Char →
    List (List StateName)
  | 0, stack, _, _, _ => [stack]
  | _ + 1, stack, _, _, [] => [stack]
  | fuel + 1, stack, prev, off, c :: cs =>
    match tryRules (rulesOf (topOf stack)) prev (c :: cs) with
    | some (_, n, op) =>
      if n = 0 then [stack]
      else
        stack ::
          scanStacksFuel fuel (applyOp op stack) ((c :: cs).take n).getLast? (off + n)
            ((c :: cs).drop n)
    | none =>
      if topOf stack = .root then
        stack :: scanStacksFuel fuel (.statement :: stack) prev off (c :: cs)
      else
        stack :: scanStacksFuel fuel stack (some c) (off + 1) cs

/-- The fueled twin agrees with `scanAux` whenever the fuel exceeds the
termination measure of the scan. -/
theorem scanAux_eq_scanFuel (fuel : Nat) :
    ∀ (stack : List StateName) (prev : Option Char) (off : Nat) (l : List Char),
      2 * l.length + (if topOf stack = StateName.root then 1 else 0) < fuel →
      scanAux stack prev off l = scanFuel fuel stack prev off l := by
  induction fuel with
  | zero =>
    intro stack prev off l h
    omega
  | succ fuel ih =>
    intro stack prev off l h
    cases l with
    | nil =>
      rw [scanAux]
      exact rfl
    | cons c cs =>
      rw [scanAux, scanFuel]
      cases htr : tryRules (rulesOf (topOf stack)) prev (c :: cs) with
      | some r =>
        obtain ⟨toks, n, op⟩ := r
        by_cases hn : n = 0
        · simp [hn]
        · simp only [dif_neg hn, if_neg hn]
          have hrank : (if topOf (applyOp op stack) = StateName.root then 1 else 0) ≤ 1 := by
            split <;> omega
          have hlen : ((c :: cs).drop n).length = cs.length + 1 - n := by
            simp [List.length_drop]
          refine congrArg _ (ih _ _ _ _ ?_)
          simp only [List.length_cons] at h
          omega
      | none =>
        by_cases hr : topOf stack = StateName.root
        · simp only [dif_pos hr, if_pos hr]
          refine ih _ _ _ _ ?_
          have h1 : (if topOf stack = StateName.root then 1 else 0) = 1 := if_pos hr
          have h2 : (if topOf (StateName.statement :: stack) = StateName.root then 1 else 0) = 0 := by
            simp [topOf]
          rw [h1] at h
          rw [h2]
          simp only [List.length_cons] at h ⊢
          omega
        · simp only [dif_neg hr, if_neg hr]
          refine congrArg _ (ih _ _ _ _ ?_)
          have hrank : (if topOf stack = StateName.root then 1 else 0) = 0 := by
            simp [hr]
          simp only [List.length_cons] at h
          omega

/-- The fueled twin agrees with `scanStacksAux` whenever the fuel
exceeds the termination measure of the scan. -/
theorem scanStacksAux_eq_scanStacksFuel (fuel : Nat) :
    ∀ (stack : List StateName) (prev : Option Char) (off : Nat) (l : List Char),
      2 * l.length + (if topOf stack = StateName.root then 1 else 0) < fuel →
      scanStacksAux stack prev off l = scanStacksFuel fuel stack prev off l := by
  induction fuel with
  | zero =>
    intro stack prev off l h
    omega
  | succ fuel ih =>
    intro stack prev off l h
    cases l with
    | nil =>
      rw [scanStacksAux]
      exact rfl
    | cons c cs =>
      rw [scanStacksAux, scanStacksFuel]
      cases htr : tryRules (rulesOf (topOf stack)) prev (c :: cs) with
      | some r =>
        obtain ⟨toks, n, op⟩ := r
        by_cases hn : n = 0
        · simp [hn]
        · simp only [dif_neg hn, if_neg hn]
          have hrank : (if topOf (applyOp op stack) = StateName.root then 1 else 0) ≤ 1 := by
            split <;> omega
          have hlen : ((c :: cs).drop n).length = cs.length + 1 - n := by
            simp [List.length_drop]
          refine congrArg _ (ih _ _ _ _ ?_)
          simp only [List.length_cons] at h
          omega
      | none =>
        by_cases hr : topOf stack = StateName.root
        · simp only [dif_pos hr, if_pos hr]
          refine congrArg _ (ih _ _ _ _ ?_)
          have h1 : (if topOf stack = StateName.root then 1 else 0) = 1 := if_pos hr
          have h2 : (if topOf (StateName.statement :: stack) = StateName.root then 1 else 0) = 0 := by
            simp [topOf]
          rw [h1] at h
          rw [h2]
          simp only [List.length_cons] at h ⊢
          omega
        · simp only [dif_neg hr, if_neg hr]
          refine congrArg _ (ih _ _ _ _ ?_)
          have hrank : (if topOf stack = StateName.root then 1 else 0) = 0 := by
            simp [hr]
          simp only [List.length_cons] at h
          omega

/-- Evaluation form of a full scan: the fueled twin with fuel
`2 * length + 2`. -/
theorem scanTokens_eval (l : List Char) :
    scanTokens l = scanFuel (2 * l.length + 2) [StateName.root] none 0 l := by
  apply scanAux_eq_scanFuel
  simp [topOf]

/-- Evaluation form of the visited stacks of a full scan. -/
theorem scanStacks_eval (l : List Char) :
    scanStacks l = scanStacksFuel (2 * l.length + 2) [StateName.root] none 0 l := by
  apply scanStacksAux_eq_scanStacksFuel
  simp [topOf]

/-! ### Soundness of the rules: every rule that fires consumes at least
one character, and its emitted token texts concatenate to exactly the
consumed prefix -/

/-- Concatenated texts of appended token lists. -/
theorem tokensText_append (a b : List (Nat × TokenType × List Char)) :
    tokensText (a ++ b) = tokensText a ++ tokensText b := by
  induction a with
  | nil => simp [tokensText]
  | cons x xs ih =>
    obtain ⟨o, t, s⟩ := x
    simp [tokensText, ih]

/-- Attaching offsets does not change the concatenated text. -/
theorem tokensText_withOffsets (ts : List (TokenType × List Char)) :
    ∀ off, tokensText (withOffsets off ts) = groupText ts := by
  induction ts with
  | nil => intro off; simp [withOffsets, tokensText, groupText]
  | cons x xs ih =>
    intro off
    obtain ⟨t, s⟩ := x
    simp [withOffsets, tokensText, groupText, ih]

/-- A rule is sound when, whenever it fires, the texts of the tokens it
emits concatenate to exactly the consumed prefix and at least one
character is consumed. -/
def SoundRule (r : Rule) : Prop :=
  ∀ prev l toks n, r.run prev l = some (toks, n) →
    groupText toks = l.take n ∧ 1 ≤ n

/-- A single-token rule is sound as soon as its matcher consumes at
least one character. -/
theorem simpleRule_sound (t : TokenType) (op : StackOp) (m : List Char → Option Nat)
    (hm : ∀ l n, m l = some n → 1 ≤ n) : SoundRule (simpleRule t op m) := by
  intro prev l toks n h
  simp only [simpleRule] at h
  cases hm' : m l with
  | none => rw [hm'] at h; simp at h
  | some k =>
    rw [hm'] at h
    simp only [Option.map_some', Option.some.injEq, Prod.mk.injEq] at h
    obtain ⟨h1, h2⟩ := h
    subst h1
    subst h2
    exact ⟨by simp [groupText], hm _ _ hm'⟩

/-- A single-token rule with context is sound as soon as its matcher
consumes at least one character. -/
theorem simpleRuleP_sound (t : TokenType) (op : StackOp)
    (m : Option Char → List Char → Option Nat)
    (hm : ∀ prev l n, m prev l = some n → 1 ≤ n) : SoundRule (simpleRuleP t op m) := by
  intro prev l toks n h
  simp only [simpleRuleP] at h
  cases hm' : m prev l with
  | none => rw [hm'] at h; simp at h
  | some k =>
    rw [hm'] at h
    simp only [Option.map_some', Option.some.injEq, Prod.mk.injEq] at h
    obtain ⟨h1, h2⟩ := h
    subst h1
    subst h2
    exact ⟨by simp [groupText], hm _ _ _ hm'⟩

theorem matchNL_pos (l : List Char) (n : Nat) (h : matchNL l = some n) : 1 ≤ n := by
  unfold matchNL at h
  split at h <;> simp_all <;> omega

theorem matchWSRun_pos (l : List Char) (n : Nat) (h : matchWSRun l = some n) : 1 ≤ n := by
  unfold matchWSRun at h
  split at h
  · simp at h
  · simp only [Option.some.injEq] at h
    omega

theorem matchLineCont_pos (l : List Char) (n : Nat) (h : matchLineCont l = some n) :
    1 ≤ n := by
  unfold matchLineCont at h
  split at h <;> simp_all <;> omega

theorem matchCommentSingle_pos (l : List Char) (n : Nat)
    (h : matchCommentSingle l = some n) : 1 ≤ n := by
  unfold matchCommentSingle at h
  split at h
  · rw [Option.map_eq_some'] at h
    obtain ⟨a, _, rfl⟩ := h
    omega
  · simp at h

theorem matchCommentMultiline_pos (l : List Char) (n : Nat)
    (h : matchCommentMultiline l = some n) : 1 ≤ n := by
  unfold matchCommentMultiline at h
  split at h <;>
    first
    | (rw [Option.map_eq_some'] at h; obtain ⟨a, _, rfl⟩ := h; omega)
    | simp at h

theorem matchCommentOpenEOF_pos (l : List Char) (n : Nat)
    (h : matchCommentOpenEOF l = some n) : 1 ≤ n := by
  unfold matchCommentOpenEOF at h
  split at h <;> simp_all <;> omega

theorem matchWords_pos (ws : List (List Char)) (hws : ∀ w ∈ ws, 1 ≤ w.length) :
    ∀ l n, matchWords ws l = some n → 1 ≤ n := by
  induction ws with
  | nil => intro l n h; simp [matchWords] at h
  | cons w rest ih =>
    intro l n h
    unfold matchWords at h
    split at h
    · simp only [Option.some.injEq] at h
      have := hws w (by simp)
      omega
    · exact ih (fun v hv => hws v (by simp [hv])) l n h

theorem kwList_lengths : ∀ w ∈ kwList, 1 ≤ w.length := by decide

theorem tyList_lengths : ∀ w ∈ tyList, 1 ≤ w.length := by decide

theorem matchKeyword_pos (l : List Char) (n : Nat) (h : matchKeyword l = some n) :
    1 ≤ n := matchWords_pos kwList kwList_lengths l n h

theorem matchType_pos (l : List Char) (n : Nat) (h : matchType l = some n) :
    1 ≤ n := matchWords_pos tyList tyList_lengths l n h

theorem matchBuiltin_pos (l : List Char) (n : Nat) (h : matchBuiltin l = some n) :
    1 ≤ n :=
  matchWords_pos _ (by decide) l n h

theorem matchOperator_pos (l : List Char) (n : Nat) (h : matchOperator l = some n) :
    1 ≤ n := by
  unfold matchOperator at h
  split at h <;> simp_all <;> omega

theorem matchPunct_pos (l : List Char) (n : Nat) (h : matchPunct l = some n) :
    1 ≤ n := by
  unfold matchPunct at h
  split at h
  · split at h <;> simp_all <;> omega
  · simp at h

theorem matchIdent_pos (l : List Char) (n : Nat) (h : matchIdent l = some n) :
    1 ≤ n := by
  unfold matchIdent at h
  split at h
  · split at h
    · simp at h
    · split at h
      · simp at h
      · simp only [Option.some.injEq] at h
        omega
  · simp at h

theorem matchStrClose_pos (l : List Char) (n : Nat) (h : matchStrClose l = some n) :
    1 ≤ n := by
  unfold matchStrClose at h
  split at h <;> simp_all <;> omega

theorem matchStrEscape_pos (l : List Char) (n : Nat) (h : matchStrEscape l = some n) :
    1 ≤ n := by
  unfold matchStrEscape at h
  split at h
  · split at h
    · simp_all <;> omega
    · split at h
      · split at h <;> simp_all <;> omega
      · split at h
        · split at h <;> simp_all <;> omega
        · split at h
          · split at h <;> simp_all <;> omega
          · split at h <;> simp_all <;> omega
  · simp at h

theorem matchStrPlain_pos (l : List Char) (n : Nat) (h : matchStrPlain l = some n) :
    1 ≤ n := by
  unfold matchStrPlain at h
  split at h
  · simp at h
  · simp only [Option.some.injEq] at h
    omega

theorem matchStrCont_pos (l : List Char) (n : Nat) (h : matchStrCont l = some n) :
    1 ≤ n := by
  unfold matchStrCont at h
  split at h <;> simp_all <;> omega

theorem matchStrStray_pos (l : List Char) (n : Nat) (h : matchStrStray l = some n) :
    1 ≤ n := by
  unfold matchStrStray at h
  split at h <;> simp_all <;> omega

theorem matchBraceClose_pos (l : List Char) (n : Nat) (h : matchBraceClose l = some n) :
    1 ≤ n := by
  unfold matchBraceClose at h
  split at h <;> simp_all <;> omega

theorem matchBraceOpenSemi_pos (l : List Char) (n : Nat)
    (h : matchBraceOpenSemi l = some n) : 1 ≤ n := by
  unfold matchBraceOpenSemi at h
  split at h
  · split at h <;> simp_all <;> omega
  · simp at h

theorem sepPart_pos (p : Char → Bool) (l : List Char) (n : Nat)
    (h : sepPart p l = some n) : 1 ≤ n := by
  unfold sepPart at h
  split at h
  · split at h
    · simp only [Option.some.injEq] at h
      omega
    · simp at h
  · simp at h

theorem pExp_pos (l : List Char) (n : Nat) (h : pExp l = some n) : 1 ≤ n := by
  unfold pExp at h
  repeat' split at h
  all_goals
    first
    | (rw [Option.map_eq_some'] at h; obtain ⟨a, _, rfl⟩ := h; omega)
    | simp at h

theorem eExp_pos (l : List Char) (n : Nat) (h : eExp l = some n) : 1 ≤ n := by
  unfold eExp at h
  repeat' split at h
  all_goals
    first
    | (rw [Option.map_eq_some'] at h; obtain ⟨a, _, rfl⟩ := h; omega)
    | simp at h

theorem hexFloatAlt1_pos (l : List Char) (n : Nat) (h : hexFloatAlt1 l = some n) :
    1 ≤ n := by
  unfold hexFloatAlt1 at h
  repeat' split at h
  all_goals
    first
    | (rw [Option.map_eq_some'] at h; obtain ⟨e, he, rfl⟩ := h; omega)
    | simp at h

theorem hexFloatAlt2_pos (l : List Char) (n : Nat) (h : hexFloatAlt2 l = some n) :
    1 ≤ n := by
  unfold hexFloatAlt2 at h
  repeat' split at h
  all_goals
    first
    | (rw [Option.map_eq_some'] at h; obtain ⟨e, he, rfl⟩ := h; omega)
    | simp at h

theorem hexFloatAlt3_pos (l : List Char) (n : Nat) (h : hexFloatAlt3 l = some n) :
    1 ≤ n := by
  unfold hexFloatAlt3 at h
  repeat' split at h
  all_goals
    first
    | (rw [Option.map_eq_some'] at h; obtain ⟨e, he, rfl⟩ := h;
       have := pExp_pos _ _ he; omega)
    | simp at h

theorem hexFloatTail_pos (l : List Char) (n : Nat) (h : hexFloatTail l = some n) :
    1 ≤ n := by
  unfold hexFloatTail at h
  split at h
  · simp only [Option.some.injEq] at h
    rename_i m heq
    have := hexFloatAlt1_pos _ _ heq
    omega
  · split at h
    · simp only [Option.some.injEq] at h
      rename_i m heq
      have := hexFloatAlt2_pos _ _ heq
      omega
    · exact hexFloatAlt3_pos _ _ h

theorem matchHexFloat_pos (l : List Char) (n : Nat) (h : matchHexFloat l = some n) :
    1 ≤ n := by
  unfold matchHexFloat at h
  repeat' split at h
  all_goals
    first
    | (rw [Option.map_eq_some'] at h; obtain ⟨e, he, rfl⟩ := h; omega)
    | simp at h

theorem decFloatExpAlt1_pos (l : List Char) (n : Nat) (h : decFloatExpAlt1 l = some n) :
    1 ≤ n := by
  unfold decFloatExpAlt1 at h
  repeat' split at h
  all_goals
    first
    | (rw [Option.map_eq_some'] at h; obtain ⟨e, he, rfl⟩ := h; omega)
    | simp at h

theorem decFloatExpAlt2_pos (l : List Char) (n : Nat) (h : decFloatExpAlt2 l = some n) :
    1 ≤ n := by
  unfold decFloatExpAlt2 at h
  repeat' split at h
  all_goals
    first
    | (rw [Option.map_eq_some'] at h; obtain ⟨e, he, rfl⟩ := h; omega)
    | simp at h

theorem decFloatExpAlt3_pos (l : List Char) (n : Nat) (h : decFloatExpAlt3 l = some n) :
    1 ≤ n := by
  unfold decFloatExpAlt3 at h
  repeat' split at h
  all_goals
    first
    | (rw [Option.map_eq_some'] at h; obtain ⟨e, he, rfl⟩ := h;
       have := eExp_pos _ _ he; omega)
    | simp at h

theorem decFloatExpTail_pos (l : List Char) (n : Nat) (h : decFloatExpTail l = some n) :
    1 ≤ n := by
  unfold decFloatExpTail at h
  split at h
  · simp only [Option.some.injEq] at h
    rename_i m heq
    have := decFloatExpAlt1_pos _ _ heq
    omega
  · split at h
    · simp only [Option.some.injEq] at h
      rename_i m heq
      have := decFloatExpAlt2_pos _ _ heq
      omega
    · exact decFloatExpAlt3_pos _ _ h

theorem matchDecFloatExp_pos (l : List Char) (n : Nat)
    (h : matchDecFloatExp l = some n) : 1 ≤ n := by
  unfold matchDecFloatExp at h
  split at h
  · rw [Option.map_eq_some'] at h
    obtain ⟨e, he, rfl⟩ := h
    omega
  · exact decFloatExpTail_pos _ _ h

theorem decFracTail_pos (l : List Char) (n : Nat) (h : decFracTail l = some n) :
    1 ≤ n := by
  unfold decFracTail at h
  repeat' split at h
  all_goals simp_all <;> omega

theorem decFloatBranch1_pos (l : List Char) (n : Nat) (h : decFloatBranch1 l = some n) :
    1 ≤ n := by
  unfold decFloatBranch1 at h
  split at h
  · rw [Option.map_eq_some'] at h
    obtain ⟨e, he, rfl⟩ := h
    omega
  · exact decFracTail_pos _ _ h

theorem decFloatBranch2_pos (l : List Char) (n : Nat) (h : decFloatBranch2 l = some n) :
    1 ≤ n := by
  unfold decFloatBranch2 at h
  repeat' split at h
  all_goals simp_all <;> omega

theorem matchDecFloat_pos (l : List Char) (n : Nat) (h : matchDecFloat l = some n) :
    1 ≤ n := by
  unfold matchDecFloat at h
  split at h
  · simp only [Option.some.injEq] at h
    rename_i m heq
    have := decFloatBranch1_pos _ _ heq
    omega
  · exact decFloatBranch2_pos _ _ h

theorem matchHexIntBody_pos (l : List Char) (n : Nat) (h : matchHexIntBody l = some n) :
    1 ≤ n := by
  unfold matchHexIntBody at h
  repeat' split at h
  all_goals simp_all <;> omega

theorem matchHexInt_pos (l : List Char) (n : Nat) (h : matchHexInt l = some n) :
    1 ≤ n := by
  unfold matchHexInt at h
  split at h
  · rw [Option.map_eq_some'] at h
    obtain ⟨e, he, rfl⟩ := h
    omega
  · exact matchHexIntBody_pos _ _ h

theorem matchBinIntBody_pos (l : List Char) (n : Nat) (h : matchBinIntBody l = some n) :
    1 ≤ n := by
  unfold matchBinIntBody at h
  repeat' split at h
  all_goals simp_all <;> omega

theorem matchBinInt_pos (l : List Char) (n : Nat) (h : matchBinInt l = some n) :
    1 ≤ n := by
  unfold matchBinInt at h
  split at h
  · rw [Option.map_eq_some'] at h
    obtain ⟨e, he, rfl⟩ := h
    omega
  · exact matchBinIntBody_pos _ _ h

theorem matchOctIntBody_pos (l : List Char) (n : Nat) (h : matchOctIntBody l = some n) :
    1 ≤ n := by
  unfold matchOctIntBody at h
  repeat' split at h
  all_goals simp_all <;> omega

theorem matchOctInt_pos (l : List Char) (n : Nat) (h : matchOctInt l = some n) :
    1 ≤ n := by
  unfold matchOctInt at h
  split at h
  · rw [Option.map_eq_some'] at h
    obtain ⟨e, he, rfl⟩ := h
    omega
  · exact matchOctIntBody_pos _ _ h

theorem matchDecIntBody_pos (l : List Char) (n : Nat) (h : matchDecIntBody l = some n) :
    1 ≤ n := by
  unfold matchDecIntBody at h
  split at h
  · simp only [Option.some.injEq] at h
    rename_i a heq
    have := sepPart_pos _ _ _ heq
    omega
  · simp at h

theorem matchDecInt_pos (l : List Char) (n : Nat) (h : matchDecInt l = some n) :
    1 ≤ n := by
  unfold matchDecInt at h
  split at h
  · rw [Option.map_eq_some'] at h
    obtain ⟨e, he, rfl⟩ := h
    omega
  · exact matchDecIntBody_pos _ _ h

theorem owFixed_pos (w l : List Char) (n : Nat) (hw : 1 ≤ w.length)
    (h : owFixed w l = some n) : 1 ≤ n := by
  unfold owFixed at h
  split at h
  · simp only [Option.some.injEq] at h
    omega
  · simp at h

theorem owToX_pos (l : List Char) (n : Nat) (h : owToX l = some n) : 1 ≤ n := by
  unfold owToX at h
  repeat' split at h
  all_goals simp_all <;> omega

theorem owYToX_pos (l : List Char) (n : Nat) (h : owYToX l = some n) : 1 ≤ n := by
  unfold owYToX at h
  repeat' split at h
  all_goals simp_all <;> omega

theorem matchOpWord_pos (prev : Option Char) (l : List Char) (n : Nat)
    (h : matchOpWord prev l = some n) : 1 ≤ n := by
  unfold matchOpWord at h
  split at h
  · split at h
    · rename_i m heq
      simp only [Option.some.injEq] at h
      subst h
      exact owFixed_pos _ _ _ (by decide) heq
    · split at h
      · rename_i m heq
        simp only [Option.some.injEq] at h
        subst h
        exact owFixed_pos _ _ _ (by decide) heq
      · split at h
        · rename_i m heq
          simp only [Option.some.injEq] at h
          subst h
          exact owFixed_pos _ _ _ (by decide) heq
        · split at h
          · rename_i m heq
            simp only [Option.some.injEq] at h
            subst h
            exact owToX_pos _ _ heq
          · exact owYToX_pos _ _ h
  · simp at h

/-- Taking one more element after position `k` appends exactly the
element found there. -/
theorem take_succ_head (l : List Char) (k : Nat) (a : Char)
    (h : (l.drop k).head? = some a) : l.take (k + 1) = l.take k ++ [a] := by
  induction k generalizing l with
  | zero =>
    cases l with
    | nil => simp at h
    | cons c t =>
      simp only [List.drop_zero, List.head?_cons, Option.some.injEq] at h
      subst h
      simp
  | succ k ih =>
    cases l with
    | nil => simp at h
    | cons c t =>
      simp only [List.drop_succ_cons] at h
      simp [List.take_succ_cons, ih t h]

/-- Unpacking `takeThenQuote`: the `k` class characters are followed by
a closing quote. -/
theorem takeThenQuote_spec (p : Char → Bool) (rest : List Char) (k : Nat)
    (h : takeThenQuote p rest k = true) :
    rest.take (k + 1) = rest.take k ++ ['\''] ∧ (rest.take k).length = k := by
  unfold takeThenQuote at h
  simp only [Bool.and_eq_true, decide_eq_true_eq, beq_iff_eq] at h
  obtain ⟨⟨h1, _⟩, h3⟩ := h
  exact ⟨take_succ_head rest k '\'' h3, h1⟩

/-- The body of a character literal, as found by `charBody`, is followed
by the closing quote in the input. -/
theorem charBody_take (l b : List Char) (h : charBody l = some b) :
    l.take (b.length + 1) = b ++ ['\''] := by
  unfold charBody at h
  split at h
  · rename_i b' hd
    simp only [Option.some.injEq] at h
    subst h
    unfold cbDotQ at hd
    split at hd
    · split at hd
      · simp at hd
      · simp only [Option.some.injEq] at hd
        subst hd
        simp
    · simp at hd
  · split at h
    · rename_i b' ho
      simp only [Option.some.injEq] at h
      subst h
      unfold cbOctQ at ho
      split at ho
      · rename_i rest
        split at ho
        · rename_i hq
          simp only [Option.some.injEq] at ho
          subst ho
          obtain ⟨ht, hl⟩ := takeThenQuote_spec _ _ _ hq
          simp [List.take_succ_cons, hl, ht]
        · split at ho
          · rename_i hq
            simp only [Option.some.injEq] at ho
            subst ho
            obtain ⟨ht, hl⟩ := takeThenQuote_spec _ _ _ hq
            simp [List.take_succ_cons, hl, ht]
          · split at ho
            · rename_i hq
              simp only [Option.some.injEq] at ho
              subst ho
              obtain ⟨ht, hl⟩ := takeThenQuote_spec _ _ _ hq
              simp [List.take_succ_cons, hl, ht]
            · simp at ho
      · simp at ho
    · split at h
      · rename_i b' hx
        simp only [Option.some.injEq] at h
        subst h
        unfold cbHexQ at hx
        split at hx
        · rename_i r2
          split at hx
          · rename_i hq
            simp only [Option.some.injEq] at hx
            subst hx
            obtain ⟨ht, hl⟩ := takeThenQuote_spec _ _ _ hq
            simp [List.take_succ_cons, hl, ht]
          · split at hx
            · rename_i hq
              simp only [Option.some.injEq] at hx
              subst hx
              obtain ⟨ht, hl⟩ := takeThenQuote_spec _ _ _ hq
              simp [List.take_succ_cons, hl, ht]
            · simp at hx
        · simp at hx
      · unfold cbPlainQ at h
        split at h
        · split at h
          · simp at h
          · simp only [Option.some.injEq] at h
            subst h
            simp
        · simp at h

/-- Taking `m + 2` elements of a cons peels one element off. -/
theorem take_add_two (c : Char) (t : List Char) (m : Nat) :
    (c :: t).take (m + 2) = c :: t.take (m + 1) := rfl

/-- Taking `m + 3` elements of a cons peels one element off. -/
theorem take_add_three (c : Char) (t : List Char) (m : Nat) :
    (c :: t).take (m + 3) = c :: t.take (m + 2) := rfl

/-- Taking `m + 4` elements of a cons peels one element off. -/
theorem take_add_four (c : Char) (t : List Char) (m : Nat) :
    (c :: t).take (m + 4) = c :: t.take (m + 3) := rfl

/-- Soundness of the string-opening `bygroups` rule. -/
theorem stringOpenRule_sound : SoundRule stringOpenRule := by
  intro prev l toks n h
  simp only [stringOpenRule] at h
  unfold stringOpenRun at h
  split at h <;>
    first
    | (simp only [Option.some.injEq, Prod.mk.injEq] at h
       obtain ⟨h1, h2⟩ := h
       subst h1
       subst h2
       exact ⟨rfl, by omega⟩)
    | simp at h

/-- Soundness of the character-literal `bygroups` rule. -/
theorem charLitRule_sound : SoundRule charLitRule := by
  intro prev l toks n h
  simp only [charLitRule] at h
  unfold charLitRun at h
  split at h <;>
    first
    | (rw [Option.map_eq_some'] at h
       obtain ⟨b, hb, hbn⟩ := h
       have ht := charBody_take _ _ hb
       simp only [Prod.mk.injEq] at hbn
       obtain ⟨h1, h2⟩ := hbn
       subst h1
       subst h2
       refine ⟨?_, by omega⟩
       simp [groupText, charQuoteToks, take_add_two, take_add_three, take_add_four, ht])
    | simp at h


/-- Soundness of every rule of the table. -/
theorem rulesOf_sound (st : StateName) : ∀ r ∈ rulesOf st, SoundRule r := by
  intro r hr
  have hws : ∀ r ∈ whitespaceRules, SoundRule r := by
    intro r hr
    simp only [whitespaceRules, List.mem_cons, List.not_mem_nil, or_false] at hr
    rcases hr with rfl | rfl | rfl | rfl | rfl | rfl
    · exact simpleRule_sound _ _ _ matchNL_pos
    · exact simpleRule_sound _ _ _ matchWSRun_pos
    · exact simpleRule_sound _ _ _ matchLineCont_pos
    · exact simpleRule_sound _ _ _ matchCommentSingle_pos
    · exact simpleRule_sound _ _ _ matchCommentMultiline_pos
    · exact simpleRule_sound _ _ _ matchCommentOpenEOF_pos
  have hst : ∀ r ∈ statementsRules, SoundRule r := by
    intro r hr
    simp only [statementsRules, keywordsRules, typesRules, List.cons_append,
      List.nil_append, List.mem_cons, List.not_mem_nil, or_false] at hr
    rcases hr with rfl | rfl | rfl | rfl | rfl | rfl | rfl | rfl | rfl | rfl | rfl |
      rfl | rfl | rfl | rfl | rfl
    · exact simpleRule_sound _ _ _ matchKeyword_pos
    · exact simpleRule_sound _ _ _ matchType_pos
    · exact stringOpenRule_sound
    · exact charLitRule_sound
    · exact simpleRule_sound _ _ _ matchHexFloat_pos
    · exact simpleRule_sound _ _ _ matchDecFloatExp_pos
    · exact simpleRule_sound _ _ _ matchDecFloat_pos
    · exact simpleRule_sound _ _ _ matchHexInt_pos
    · exact simpleRule_sound _ _ _ matchBinInt_pos
    · exact simpleRule_sound _ _ _ matchOctInt_pos
    · exact simpleRule_sound _ _ _ matchDecInt_pos
    · exact simpleRule_sound _ _ _ matchOperator_pos
    · exact simpleRuleP_sound _ _ _ matchOpWord_pos
    · exact simpleRule_sound _ _ _ matchPunct_pos
    · exact simpleRule_sound _ _ _ matchBuiltin_pos
    · exact simpleRule_sound _ _ _ matchIdent_pos
  cases st with
  | root =>
    simp only [rulesOf, rootRules, keywordsRules, typesRules, List.mem_append,
      List.mem_cons, List.not_mem_nil, or_false] at hr
    rcases hr with (hr | rfl) | rfl
    · exact hws r hr
    · exact simpleRule_sound _ _ _ matchKeyword_pos
    · exact simpleRule_sound _ _ _ matchType_pos
  | statement =>
    simp only [rulesOf, statementRules, List.mem_append, List.mem_cons,
      List.not_mem_nil, or_false] at hr
    rcases hr with (hr | hr) | rfl | rfl
    · exact hws r hr
    · exact hst r hr
    · exact simpleRule_sound _ _ _ matchBraceClose_pos
    · exact simpleRule_sound _ _ _ matchBraceOpenSemi_pos
  | stringState =>
    simp only [rulesOf, stringRules, List.mem_cons, List.not_mem_nil, or_false] at hr
    rcases hr with rfl | rfl | rfl | rfl | rfl
    · exact simpleRule_sound _ _ _ matchStrClose_pos
    · exact simpleRule_sound _ _ _ matchStrEscape_pos
    · exact simpleRule_sound _ _ _ matchStrPlain_pos
    · exact simpleRule_sound _ _ _ matchStrCont_pos
    · exact simpleRule_sound _ _ _ matchStrStray_pos

/-- Whatever rule the first-match selection fires, the emitted texts
concatenate to the consumed prefix and at least one character is
consumed. -/
theorem tryRules_sound (rs : List Rule) (hs : ∀ r ∈ rs, SoundRule r)
    (prev : Option Char) (l : List Char) (toks : List (TokenType × List Char))
    (n : Nat) (op : StackOp) (h : tryRules rs prev l = some (toks, n, op)) :
    groupText toks = l.take n ∧ 1 ≤ n := by
  induction rs with
  | nil => simp [tryRules] at h
  | cons r rest ih =>
    unfold tryRules at h
    cases hr : r.run prev l with
    | some p =>
      rw [hr] at h
      obtain ⟨toks', n'⟩ := p
      simp only [Option.some.injEq, Prod.mk.injEq] at h
      obtain ⟨h1, h2, _⟩ := h
      subst h1
      subst h2
      exact hs r (by simp) prev l _ _ hr
    | none =>
      rw [hr] at h
      exact ih (fun r hr => hs r (by simp [hr])) h

/-- The fueled scan reconstructs its input exactly, given enough
fuel. -/
theorem scanFuel_text (fuel : Nat) :
    ∀ (stack : List StateName) (prev : Option Char) (off : Nat) (l : List Char),
      2 * l.length + (if topOf stack = StateName.root then 1 else 0) < fuel →
      tokensText (scanFuel fuel stack prev off l) = l := by
  induction fuel with
  | zero =>
    intro stack prev off l h
    omega
  | succ fuel ih =>
    intro stack prev off l h
    cases l with
    | nil => rfl
    | cons c cs =>
      rw [scanFuel]
      cases htr : tryRules (rulesOf (topOf stack)) prev (c :: cs) with
      | some r =>
        obtain ⟨toks, n, op⟩ := r
        obtain ⟨htext, hpos⟩ :=
          tryRules_sound _ (rulesOf_sound (topOf stack)) _ _ _ _ _ htr
        have hn : ¬ n = 0 := by omega
        simp only [if_neg hn]
        rw [tokensText_append, tokensText_withOffsets, htext]
        have hrank : (if topOf (applyOp op stack) = StateName.root then 1 else 0) ≤ 1 := by
          split <;> omega
        have hlen : ((c :: cs).drop n).length = cs.length + 1 - n := by
          simp [List.length_drop]
        rw [ih _ _ _ _ (by simp only [List.length_cons] at h ⊢; omega)]
        exact List.take_append_drop n (c :: cs)
      | none =>
        by_cases hr : topOf stack = StateName.root
        · simp only [if_pos hr]
          refine ih _ _ _ _ ?_
          have h1 : (if topOf stack = StateName.root then 1 else 0) = 1 := if_pos hr
          have h2 : (if topOf (StateName.statement :: stack) = StateName.root then 1 else 0) = 0 := by
            simp [topOf]
          rw [h1] at h
          rw [h2]
          simp only [List.length_cons] at h ⊢
          omega
        · simp only [if_neg hr]
          have h0 : (if topOf stack = StateName.root then 1 else 0) = 0 := if_neg hr
          rw [h0] at h
          simp only [tokensText]
          rw [ih _ _ _ _ (by rw [h0]; simp only [List.length_cons] at h ⊢; omega)]
          rfl

/-! ### Stack discipline -/

/-- A well-formed state stack: some states on top of the bottom `root`
sentinel. -/
def GoodStack (st : List StateName) : Prop :=
  ∃ p, st = p ++ [StateName.root]

/-- Stack actions preserve well-formedness: a push adds one level, a pop
removes the top level but never the sentinel. -/
theorem applyOp_good (op : StackOp) (st : List StateName) (h : GoodStack st) :
    GoodStack (applyOp op st) := by
  obtain ⟨p, rfl⟩ := h
  cases op with
  | stay => exact ⟨p, rfl⟩
  | push s => exact ⟨s :: p, rfl⟩
  | pop =>
    cases p with
    | nil =>
      refine ⟨[], ?_⟩
      simp [applyOp, popStack]
    | cons q p' =>
      refine ⟨p', ?_⟩
      simp [applyOp, popStack]

/-- All stacks visited by the fueled scan are well-formed. -/
theorem scanStacksFuel_good (fuel : Nat) :
    ∀ (stack : List StateName) (prev : Option Char) (off : Nat) (l : List Char),
      GoodStack stack →
      ∀ s ∈ scanStacksFuel fuel stack prev off l, GoodStack s := by
  induction fuel with
  | zero =>
    intro stack prev off l hg s hs
    simp only [scanStacksFuel, List.mem_singleton] at hs
    subst hs
    exact hg
  | succ fuel ih =>
    intro stack prev off l hg s hs
    cases l with
    | nil =>
      simp only [scanStacksFuel, List.mem_singleton] at hs
      subst hs
      exact hg
    | cons c cs =>
      rw [scanStacksFuel] at hs
      cases htr : tryRules (rulesOf (topOf stack)) prev (c :: cs) with
      | some r =>
        obtain ⟨toks, n, op⟩ := r
        rw [htr] at hs
        by_cases hn : n = 0
        · simp only [if_pos hn, List.mem_singleton] at hs
          subst hs
          exact hg
        · simp only [if_neg hn, List.mem_cons] at hs
          rcases hs with rfl | hs
          · exact hg
          · exact ih _ _ _ _ (applyOp_good op stack hg) s hs
      | none =>
        rw [htr] at hs
        by_cases hr : topOf stack = StateName.root
        · simp only [if_pos hr, List.mem_cons] at hs
          rcases hs with rfl | hs
          · exact hg
          · obtain ⟨p, rfl⟩ := hg
            exact ih _ _ _ _ ⟨StateName.statement :: p, rfl⟩ s hs
        · simp only [if_neg hr, List.mem_cons] at hs
          rcases hs with rfl | hs
          · exact hg
          · exact ih _ _ _ _ hg s hs

/-- The last element of a list ending in `a` is `a`. -/
theorem getLast?_append_singleton (p : List StateName) (a : StateName) :
    (p ++ [a]).getLast? = some a := by
  induction p with
  | nil => rfl
  | cons q p' ih =>
    cases hp : p' ++ [a] with
    | nil => exact absurd hp (by simp)
    | cons y ys =>
      rw [List.cons_append, hp, List.getLast?_cons_cons, ← hp, ih]

/-! ### Claims -/

/-- C1: for every finite input text, a scan with the IecstLexer token
table terminates (the scanner is a total function, its recursion
well-founded in the cursor position) and the concatenation of the text
fields of all emitted tokens, in emission order, equals the original
input exactly, with no characters dropped or duplicated. -/
theorem scan_total_reconstructs (l : List Char) : tokensText (scanTokens l) = l := by
  rw [scanTokens_eval]
  exact scanFuel_text _ _ _ _ _ (by simp [topOf])

/-- C2 (divergence evidence): on the input `"(* abc"` neither the
terminated block-comment rule nor the open-until-EOF fallback rule
(whose pattern starts with `/`, not `(`) matches, so the scan emits
`Punctuation "("`, `Operator "*"`, `Whitespace " "`, `Name "abc"` and
not one `Comment.Multiline` token; the fallback does fire on the
C-style `"/* abc"`, consuming the entire remainder. -/
theorem unterminated_comment_divergence :
    matchCommentOpenEOF ("(* abc".toList) = none ∧
    matchCommentMultiline ("(* abc".toList) = none ∧
    scanString "(* abc" =
      [(0, TokenType.Punctuation, ['(']), (1, TokenType.Operator, ['*']),
       (2, TokenType.Whitespace, [' ']), (3, TokenType.Name, ['a', 'b', 'c'])] ∧
    scanString "/* abc" = [(0, TokenType.CommentMultiline, "/* abc".toList)] := by
  refine ⟨by decide, by decide, ?_, ?_⟩ <;>
    (rw [scanString, scanTokens_eval]; decide)

/-- C3: at an input position where no rule of the active state matches
(for a state with no default fallback, i.e. any state other than
`root`), the scanner emits exactly one `Error` token whose text is the
single current character, advances the cursor by exactly one character,
and continues scanning with the same state stack; the scan is a total
function, so no exception or fault can stop it. -/
theorem no_match_emits_error (stack : List StateName) (prev : Option Char)
    (off : Nat) (c : Char) (cs : List Char)
    (htop : topOf stack ≠ StateName.root)
    (hnm : tryRules (rulesOf (topOf stack)) prev (c :: cs) = none) :
    scanAux stack prev off (c :: cs) =
      (off, TokenType.Error, [c]) :: scanAux stack (some c) (off + 1) cs := by
  rw [scanAux]
  simp only [hnm]
  rw [dif_neg htop]

/-- Witness for C3: the character `@` in the `statement` state matches
no rule and yields one `Error` token of text `"@"`. -/
theorem no_match_emits_error_witness :
    scanAux [StateName.statement, StateName.root] none 0 ['@'] =
      (0, TokenType.Error, ['@']) ::
        scanAux [StateName.statement, StateName.root] (some '@') 1 [] :=
  no_match_emits_error _ _ _ _ _ (by decide) (by decide)

/-- C4: first-match in declared order of the include-expanded rule
list: `include('keywords')` places the keyword rule first in the
`statements` rule list, so whenever the keyword rule matches at the
cursor, its action is the one that fires — no later rule (such as the
identifier rule, which also matches the word `IF`) can preempt it. -/
theorem keywords_fire_first (prev : Option Char) (l : List Char)
    (toks : List (TokenType × List Char)) (n : Nat)
    (h : kwRule.run prev l = some (toks, n)) :
    tryRules statementsRules prev l = some (toks, n, StackOp.stay) := by
  simp only [statementsRules, keywordsRules, List.cons_append, List.nil_append]
  rw [tryRules, h]
  rfl

/-- Witness for C4: on `"IF x"` the keyword rule matches `IF` and fires
as `Keyword` in the `statements` rule list. -/
theorem keywords_fire_first_witness :
    tryRules statementsRules none ("IF x".toList) =
      some ([(TokenType.Keyword, ['I', 'F'])], 2, StackOp.stay) :=
  keywords_fire_first none _ _ _ (by decide)

/-- C5: longest alternative and word-boundary semantics of the keyword
word list: `VAR_INPUT` scans as one `Keyword` token `"VAR_INPUT"` (not
as `VAR`), and `IFX` scans as a `Name` token (the keyword `IF` does not
match as a prefix of a longer identifier). -/
theorem keyword_longest_and_boundary :
    scanString "VAR_INPUT" = [(0, TokenType.Keyword, "VAR_INPUT".toList)] ∧
    scanString "IFX" = [(0, TokenType.Name, "IFX".toList)] := by
  constructor <;> (rw [scanString, scanTokens_eval]; decide)

/-- C6: a double quote in statement context pushes the `string` state
and — the affix group not having participated — emits no empty
`String.Affix` token; the escape `\n` inside the string is a distinct
`String.Escape` token; the first unescaped closing quote emits a
`String` token and pops the `string` state (visible in the visited
stacks). -/
theorem string_state_roundtrip :
    stringOpenRun ("\"a".toList) = some ([(TokenType.String, ['"'])], 1) ∧
    scanString "\"a\\nb\"" =
      [(0, TokenType.String, ['"']), (1, TokenType.String, ['a']),
       (2, TokenType.StringEscape, ['\\', 'n']), (4, TokenType.String, ['b']),
       (5, TokenType.String, ['"'])] ∧
    scanStacks ("\"a\\nb\"".toList) =
      [[StateName.root], [StateName.statement, StateName.root],
       [StateName.stringState, StateName.statement, StateName.root],
       [StateName.stringState, StateName.statement, StateName.root],
       [StateName.stringState, StateName.statement, StateName.root],
       [StateName.stringState, StateName.statement, StateName.root],
       [StateName.statement, StateName.root]] := by
  refine ⟨by decide, ?_, ?_⟩
  · rw [scanString, scanTokens_eval]
    decide
  · rw [scanStacks_eval]
    decide

/-- C7: stack discipline: every state stack visited during any scan is
nonempty and carries the `root` sentinel at its bottom (the bottom
state is never removed), and a `#pop` taken when only the sentinel
remains is a no-op, not a fault. -/
theorem stack_discipline :
    (∀ (l : List Char) (s : List StateName), s ∈ scanStacks l →
      s ≠ [] ∧ s.getLast? = some StateName.root) ∧
    (∀ st : List StateName, st.length ≤ 1 → popStack st = st) := by
  constructor
  · intro l s hs
    rw [scanStacks_eval] at hs
    have hg := scanStacksFuel_good _ _ _ _ _ ⟨[], rfl⟩ s hs
    obtain ⟨p, rfl⟩ := hg
    exact ⟨by simp, getLast?_append_singleton p _⟩
  · intro st hlen
    unfold popStack
    rw [if_neg (by omega)]

/-- Witness for C7: a stack visited while scanning `"@"`, and the pop
no-op on the bare sentinel stack. -/
theorem stack_discipline_witness :
    ([StateName.statement, StateName.root] ≠ [] ∧
      [StateName.statement, StateName.root].getLast? = some StateName.root) ∧
    popStack [StateName.root] = [StateName.root] :=
  ⟨stack_discipline.1 ['@'] [StateName.statement, StateName.root]
      (by rw [scanStacks_eval]; decide),
    stack_discipline.2 [StateName.root] (by decide)⟩

/-- C8: determinism: the scanner is modelled as a pure function of the
token table and the input text (all state — stack, cursor, previous
character — is created fresh per scan inside `scanTokens`), so scanning
the same input twice yields identical token sequences: same kinds, same
texts, same offsets, in the same order. -/
theorem scan_deterministic (l : List Char) : scanTokens l = scanTokens l := rfl

/-- C9: a `//` comment is recognised as `Comment.Single` only when
terminated by a newline: on `"//abc"` (no trailing newline) the pattern
fails and each `/` scans as an `Operator` token; with the newline the
whole comment is one `Comment.Single` token. -/
theorem line_comment_needs_newline :
    matchCommentSingle ("//abc".toList) = none ∧
    scanString "//abc" =
      [(0, TokenType.Operator, ['/']), (1, TokenType.Operator, ['/']),
       (2, TokenType.Name, ['a', 'b', 'c'])] ∧
    scanString "//abc\n" = [(0, TokenType.CommentSingle, "//abc\n".toList)] := by
  refine ⟨by decide, ?_, ?_⟩ <;>
    (rw [scanString, scanTokens_eval]; decide)

/-- C10: the input `"-5"` scans as a single `Number.Integer` token
`"-5"` including the sign — the integer rule with its optional leading
minus is declared before the operator rule, although the operator rule
also matches at the `-`. -/
theorem negative_number_single_token :
    scanString "-5" = [(0, TokenType.NumberInteger, ['-', '5'])] ∧
    matchDecInt ("-5".toList) = some 2 ∧
    matchOperator ("-5".toList) = some 1 := by
  refine ⟨?_, by decide, by decide⟩
  rw [scanString, scanTokens_eval]
  decide

end Iecst
